import Mathlib

/-!
Verification of the duplicate-removal script `qualys_agent_duplicate_removal.py`.

The development shallowly embeds the three stages of the script:
* `fetch_cloud_agents` (lines 51-104): paginated inventory fetch with fail-soft
  error handling and timestamp normalization;
* `find_duplicate_agents` (lines 106-119): the pandas pipeline
  `duplicated(keep=False)` / `sort_values` / `drop_duplicates(keep="first")` /
  index filtering;
* `remove_cloud_agents` (lines 121-155): the removal loop with dry-run mode,
  per-item error isolation and the response success predicate.

pandas specifics modelled: `sort_values` on several columns performs a stable
lexicographic sort (`np.lexsort`), and the default `na_position="last"` places
`NaT` values last for ascending *and* descending keys alike.  The stable sort
is embedded as `List.insertionSort`, which is stable
(`List.sublist_insertionSort`) and sorted (`List.sorted_insertionSort`), hence
extensionally equal to any stable sort by the same key.  String columns are
compared through their character lists so that all comparisons are
kernel-computable.
-/

namespace Qualys

/-- An asset record of the in-memory `agents_data` DataFrame after the
timestamp normalization of lines 102-103: `created` and `modified` hold `none`
exactly when `pd.to_datetime(..., errors="coerce")` produced `NaT` for the wire
string. -/
structure Agent where
  id : String
  hostname : String
  address : String
  created : Option Int
  modified : Option Int
deriving DecidableEq

/-- A DataFrame row: the pandas integer index (assigned by the
`ignore_index=True` concatenation in `fetch_cloud_agents`) paired with the
record. -/
abbrev Row := Nat × Agent

/-- Rows of `l` labelled with consecutive integer indices starting at `i`;
models the RangeIndex of the `agents_data` DataFrame. -/
def indexRows : Nat → List Agent → List Row
  | _, [] => []
  | i, a :: l => (i, a) :: indexRows (i + 1) l

/-- The grouping key used by `duplicated` / `sort_values` / `drop_duplicates`:
the `["hostname", "address"]` column pair. -/
def dupKey (a : Agent) : String × String := (a.hostname, a.address)

/-- pandas sort key of the `modified` column under `ascending=False` with the
default `na_position="last"`: larger timestamps sort first, `NaT` sorts last. -/
def modifiedKey : Option Int → WithTop Int
  | none => ⊤
  | some t => ((-t : Int) : WithTop Int)

/-- pandas sort key of the `created` column under `ascending=True` with the
default `na_position="last"`: smaller timestamps sort first, `NaT` sorts last. -/
def createdKey : Option Int → WithTop Int
  | none => ⊤
  | some t => ((t : Int) : WithTop Int)

/-- The lexicographic sort key of lines 110-113:
`["hostname", "address", "modified", "created"]` with
`ascending=[True, True, False, True]`. -/
def sortKey (a : Agent) : List Char ×ₗ (List Char ×ₗ (WithTop Int ×ₗ WithTop Int)) :=
  toLex (a.hostname.data,
    toLex (a.address.data, toLex (modifiedKey a.modified, createdKey a.created)))

/-- The comparison driving the stable sort of line 110. -/
def rowLe (a b : Row) : Prop := sortKey a.2 ≤ sortKey b.2

instance : DecidableRel rowLe :=
  fun a b => inferInstanceAs (Decidable (sortKey a.2 ≤ sortKey b.2))

instance : IsTotal Row rowLe := ⟨fun a b => le_total (sortKey a.2) (sortKey b.2)⟩

instance : IsTrans Row rowLe := ⟨fun _ _ _ h h' => le_trans h h'⟩

/-- Number of rows of `rows` whose grouping key is `k`. -/
def keyCount (rows : List Row) (k : String × String) : Nat :=
  rows.countP (fun r => decide (dupKey r.2 = k))

/-- Line 109: `agents_data[agents_data.duplicated(["hostname", "address"],
keep=False)]` keeps exactly the rows whose grouping key occurs at least twice. -/
def duplicatedKeepFalse (rows : List Row) : List Row :=
  rows.filter (fun r => decide (2 ≤ keyCount rows (dupKey r.2)))

/-- Lines 109-113: the duplicate rows, stably sorted by the key of
lines 111-112. -/
def sortedDuplicates (inv : List Agent) : List Row :=
  List.insertionSort rowLe (duplicatedKeepFalse (indexRows 0 inv))

/-- Line 114: `drop_duplicates(subset=["hostname", "address"], keep="first")`,
keeping the first row of each grouping key; `seen` is the set of keys already
encountered. -/
def dropDuplicatesFirst : List Row → List (String × String) → List Row
  | [], _ => []
  | r :: rs, seen =>
    if dupKey r.2 ∈ seen then dropDuplicatesFirst rs seen
    else r :: dropDuplicatesFirst rs (dupKey r.2 :: seen)

/-- Line 114: the retained (`latest_entries`) rows. -/
def latestEntries (inv : List Agent) : List Row :=
  dropDuplicatesFirst (sortedDuplicates inv) []

/-- Lines 106-119, `find_duplicate_agents`: the removal candidates are the
sorted duplicate rows whose index is not among the retained indices
(`~sorted_duplicates.index.isin(latest_entries.index)`). -/
def find_duplicate_agents (inv : List Agent) : List Row :=
  (sortedDuplicates inv).filter
    (fun r => decide (¬ r.1 ∈ (latestEntries inv).map Prod.fst))

/-- Strict precedence in the stable sort of line 110: strictly smaller sort
key, or equal sort key and smaller original index (stability of the sort). -/
def precedes (a b : Row) : Prop :=
  sortKey a.2 < sortKey b.2 ∨ (sortKey a.2 = sortKey b.2 ∧ a.1 < b.1)

/-- The row of a duplicate group that `find_duplicate_agents` retains:
it precedes (in the sense of the stable sort) every other row with the same
grouping key. -/
def retainedFirst (rows : List Row) (r : Row) : Prop :=
  ∀ s ∈ rows, dupKey s.2 = dupKey r.2 → s ≠ r → precedes r s

/-- The retention ordering actually implemented: `r` is kept in preference to
`s` when `r` has the strictly later modified timestamp (an unparseable
modified counting as earliest), or modified ties and `r` has the strictly
earlier created timestamp (an unparseable created counting as latest), or
both tie and `r` occurs earlier in the fetched inventory (stability). -/
def keepsBefore (r s : Row) : Prop :=
  modifiedKey r.2.modified < modifiedKey s.2.modified ∨
    (modifiedKey r.2.modified = modifiedKey s.2.modified ∧
      (createdKey r.2.created < createdKey s.2.created ∨
        (createdKey r.2.created = createdKey s.2.created ∧ r.1 < s.1)))

/-- Claim-side definition, following the specification's words: an unparseable
created timestamp "sorts as the earliest possible value" under the ascending
created ordering, i.e. before every parseable created timestamp. -/
def specCreatedKeyNullEarliest : Option Int → WithBot Int
  | none => ⊥
  | some t => ((t : Int) : WithBot Int)

/-- One run of the Duplicate Selector as the orchestrator sees it: the
candidate set together with the (unmutated) inventory it operated on. -/
def selectorRun (inv : List Agent) : List Row × List Agent :=
  (find_duplicate_agents inv, inv)

/-- Concrete two-record inventory: equal grouping keys, equal modified
timestamps, one parseable and one unparseable created timestamp. -/
def tieNullInv : List Agent :=
  [⟨"a1", "host", "10.0.0.1", some 5, some 10⟩,
   ⟨"a2", "host", "10.0.0.1", none, some 10⟩]

/-- A second concrete inventory of the same shape, with different field
values. -/
def tieNullInv2 : List Agent :=
  [⟨"b1", "hostb", "10.0.0.2", some 7, some 3⟩,
   ⟨"b2", "hostb", "10.0.0.2", none, some 3⟩]

/-! ### Model of `fetch_cloud_agents` (lines 51-104) -/

/-- Result of the `findtext` calls on one `HostAsset` element (lines 78-82):
`none` when the child element is missing, otherwise its raw text. -/
structure RawEntry where
  name : Option String
  id : Option String
  address : Option String
  modified : Option String
  created : Option String
deriving DecidableEq

/-- A row of `agents_data` before the timestamp normalization: the
string-valued columns appended at lines 84-91. -/
structure RawAgent where
  id : String
  hostname : String
  address : String
  created : String
  modified : String
deriving DecidableEq

/-- Lines 78-91: extraction of one entry: `name` lowercased, every missing
field defaulting to the empty string. -/
def parseEntry (e : RawEntry) : RawAgent :=
  { id := e.id.getD ""
    hostname := (e.name.getD "").toLower
    address := e.address.getD ""
    created := e.created.getD ""
    modified := e.modified.getD "" }

/-- One search request issued by the fetch loop (lines 61-72): the fixed
tracking-method filter and the pagination preferences of the payload. -/
structure SearchRequest where
  trackingMethod : String
  limitResults : Nat
  startFromOffset : Nat
deriving DecidableEq

/-- The remote API's response to one search request: a transport error (a
network failure, or a non-success HTTP status raised by `raise_for_status`),
or a parsed page with its `HostAsset` entries and the text of the
`hasMoreRecords` element (`none` when absent). -/
inductive FetchResp
  | transportError
  | page (entries : List RawEntry) (hasMoreRecords : Option String)

/-- Observable outcome of the fetch loop: the accumulated rows, the requests
issued (in order), and whether a transport error was logged. -/
structure FetchTrace where
  agentsData : List RawAgent
  requests : List SearchRequest
  errorLogged : Bool

/-- Lines 59-100: the fetch loop. `resps` lists the responses the remote API
returns to the successive requests. The loop issues a request at `offset`,
appends the parsed entries of a successful page, advances the offset by 1000
while `hasMoreRecords` equals `"true"`, and on a transport error logs it and
breaks, keeping what was accumulated so far. (When `resps` is exhausted the
model stops with the accumulator; theorems only examine runs whose response
list covers the loop.) -/
def fetchLoop : List FetchResp → Nat → List RawAgent → FetchTrace
  | [], _, acc => ⟨acc, [], false⟩
  | .transportError :: _, offset, acc =>
      ⟨acc, [⟨"QAGENT", 1000, offset⟩], true⟩
  | .page entries hmr :: rest, offset, acc =>
      if hmr = some "true" then
        let t := fetchLoop rest (offset + 1000) (acc ++ entries.map parseEntry)
        ⟨t.agentsData, ⟨"QAGENT", 1000, offset⟩ :: t.requests, t.errorLogged⟩
      else
        ⟨acc ++ entries.map parseEntry, [⟨"QAGENT", 1000, offset⟩], false⟩

/-- Lines 51-104, `fetch_cloud_agents`: run the loop from offset 1 with an
empty DataFrame, then normalize the timestamp columns (lines 102-103) through
the abstract parser `parseTs`, modelling
`pd.to_datetime(..., errors="coerce", utc=True).dt.tz_localize(None)`, which
yields `none` exactly on unparseable input. -/
def fetch_cloud_agents (parseTs : String → Option Int) (resps : List FetchResp) :
    List Agent :=
  (fetchLoop resps 1 []).agentsData.map fun r =>
    { id := r.id, hostname := r.hostname, address := r.address,
      created := parseTs r.created, modified := parseTs r.modified }

/-! ### Model of `remove_cloud_agents` (lines 121-155) -/

/-- Outcome of one candidate's removal attempt in live mode: an exception
anywhere in the `try` block (transport error, `raise_for_status`, or XML
parsing), or a parsed response with the texts of its `responseCode` and
`count` elements (`none` when absent). -/
inductive UninstallOutcome
  | exn
  | resp (responseCode : Option String) (count : Option String)

/-- One `log_debug` line emitted by `remove_cloud_agents`: the per-candidate
header of line 131, the success line 150, the failure line 152, and the
exception line 155. -/
inductive LogEvent
  | header (dryRun : Bool) (agentId hostname address : String)
  | uninstallOk (agentId : String)
  | uninstallFailed (agentId : String) (responseCode count : Option String)
  | uninstallError (agentId : String)
deriving DecidableEq

/-- Lines 124-155: the removal loop over the candidate rows. `api i` is the
outcome of the uninstall call for the `i`-th candidate of the whole run.
Returns the log lines (in order) and the ids for which an uninstall call was
issued. -/
def removeLoop (api : Nat → UninstallOutcome) (dry_run : Bool) :
    List Row → Nat → List LogEvent × List String
  | [], _ => ([], [])
  | r :: rest, i =>
    let hd := LogEvent.header dry_run r.2.id r.2.hostname r.2.address
    if dry_run then
      let t := removeLoop api dry_run rest (i + 1)
      (hd :: t.1, t.2)
    else
      match api i with
      | .exn =>
        let t := removeLoop api dry_run rest (i + 1)
        (hd :: LogEvent.uninstallError r.2.id :: t.1, r.2.id :: t.2)
      | .resp rc cnt =>
        let ev := if rc = some "SUCCESS" ∧ cnt ≠ some "0" then
            LogEvent.uninstallOk r.2.id
          else LogEvent.uninstallFailed r.2.id rc cnt
        let t := removeLoop api dry_run rest (i + 1)
        (hd :: ev :: t.1, r.2.id :: t.2)

/-- Lines 121-155, `remove_cloud_agents`. -/
def remove_cloud_agents (api : Nat → UninstallOutcome) (agents_to_remove : List Row)
    (dry_run : Bool) : List LogEvent × List String :=
  removeLoop api dry_run agents_to_remove 0

/-! ### Order-theoretic facts about the sort -/

lemma precedes_trans {a b c : Row} (h : precedes a b) (h' : precedes b c) :
    precedes a c := by
  rcases h with h | ⟨he, hn⟩ <;> rcases h' with h' | ⟨he', hn'⟩
  · exact Or.inl (lt_trans h h')
  · exact Or.inl (he' ▸ h)
  · exact Or.inl (he ▸ h')
  · exact Or.inr ⟨he.trans he', Nat.lt_trans hn hn'⟩

lemma precedes_asymm {a b : Row} (h : precedes a b) (h' : precedes b a) : False := by
  rcases h with h | ⟨he, hn⟩ <;> rcases h' with h' | ⟨he', hn'⟩
  · exact absurd h' (lt_asymm h)
  · exact absurd (he' ▸ h) (lt_irrefl _)
  · exact absurd (he ▸ h') (lt_irrefl _)
  · exact absurd hn' (Nat.lt_asymm hn)

lemma precedes_irrefl {a : Row} (h : precedes a a) : False := precedes_asymm h h

lemma precedes_total_of_fst_ne {a b : Row} (h : a.1 ≠ b.1) :
    precedes a b ∨ precedes b a := by
  rcases lt_trichotomy (sortKey a.2) (sortKey b.2) with hk | hk | hk
  · exact Or.inl (Or.inl hk)
  · rcases Nat.lt_or_ge a.1 b.1 with hn | hn
    · exact Or.inl (Or.inr ⟨hk, hn⟩)
    · exact Or.inr (Or.inr ⟨hk.symm, lt_of_le_of_ne hn (Ne.symm h)⟩)
  · exact Or.inr (Or.inl hk)

lemma mem_indexRows_le {i : Nat} {l : List Agent} {r : Row}
    (h : r ∈ indexRows i l) : i ≤ r.1 := by
  induction l generalizing i with
  | nil => simp [indexRows] at h
  | cons a l ih =>
    rcases (List.mem_cons).mp h with h | h
    · subst h; exact Nat.le_refl _
    · exact Nat.le_of_succ_le (ih h)

lemma indexRows_pairwise (i : Nat) (l : List Agent) :
    (indexRows i l).Pairwise (fun a b => a.1 < b.1) := by
  induction l generalizing i with
  | nil => exact List.Pairwise.nil
  | cons a l ih =>
    exact List.Pairwise.cons (fun s hs => Nat.lt_of_lt_of_le (Nat.lt_succ_self i)
      (mem_indexRows_le hs)) (ih (i + 1))

/-- In a list pairwise-ordered by an asymmetric relation, any two members
related by the relation occur in that order, as a two-element sublist. -/
lemma pair_sublist_of_pairwise {α : Type} {R : α → α → Prop}
    (hasymm : ∀ x y, R x y → R y x → False) :
    ∀ {l : List α} {a b : α}, l.Pairwise R → a ∈ l → b ∈ l → R a b →
      List.Sublist [a, b] l := by
  intro l
  induction l with
  | nil => intro a b _ ha; simp at ha
  | cons x xs ih =>
    intro a b hp ha hb hab
    have hhead : ∀ y ∈ xs, R x y := fun y hy => List.rel_of_pairwise_cons hp hy
    rcases List.mem_cons.mp ha with rfl | ha2
    · rcases List.mem_cons.mp hb with rfl | hb2
      · exact absurd hab (fun h => hasymm _ _ h h)
      · exact List.Sublist.cons₂ a (List.singleton_sublist.mpr hb2)
    · rcases List.mem_cons.mp hb with rfl | hb2
      · exact absurd (hhead a ha2) (fun h => hasymm _ _ hab h)
      · exact List.Sublist.cons x (ih hp.of_cons ha2 hb2 hab)

/-- A two-element sublist appears at a strictly increasing pair of positions. -/
lemma exists_getElem_pair_of_sublist {α : Type} {a b : α} :
    ∀ {l : List α}, List.Sublist [a, b] l →
      ∃ (i j : Nat) (hi : i < l.length) (hj : j < l.length),
        i < j ∧ l.get ⟨i, hi⟩ = a ∧ l.get ⟨j, hj⟩ = b := by
  intro l
  induction l with
  | nil => intro h; exact absurd h (by simp)
  | cons x xs ih =>
    intro h
    cases h with
    | cons _ h =>
      obtain ⟨i, j, hi, hj, hij, ha, hb⟩ := ih h
      exact ⟨i + 1, j + 1, Nat.succ_lt_succ hi, Nat.succ_lt_succ hj,
        Nat.succ_lt_succ hij, ha, hb⟩
    | cons₂ _ h =>
      obtain ⟨j, hj, hb⟩ := List.getElem_of_mem (List.singleton_sublist.mp h)
      exact ⟨0, j + 1, Nat.succ_pos _, Nat.succ_lt_succ hj, Nat.succ_pos _, rfl, hb⟩

lemma mem_duplicatedKeepFalse {rows : List Row} {r : Row} :
    r ∈ duplicatedKeepFalse rows ↔
      r ∈ rows ∧ 2 ≤ keyCount rows (dupKey r.2) := by
  simp [duplicatedKeepFalse, List.mem_filter]

/-- The sorted duplicate rows are pairwise ordered by `precedes`: the stable
sort orders rows by sort key and, for equal keys, keeps the original
(DataFrame-index) order. -/
lemma sortedDuplicates_pairwise (inv : List Agent) :
    (sortedDuplicates inv).Pairwise precedes := by
  have hpfst : (duplicatedKeepFalse (indexRows 0 inv)).Pairwise
      (fun a b => a.1 < b.1) :=
    List.Pairwise.filter _ (indexRows_pairwise 0 inv)
  have hsorted : (sortedDuplicates inv).Pairwise rowLe :=
    List.sorted_insertionSort rowLe (duplicatedKeepFalse (indexRows 0 inv))
  have hperm : (sortedDuplicates inv).Perm (duplicatedKeepFalse (indexRows 0 inv)) :=
    List.perm_insertionSort rowLe (duplicatedKeepFalse (indexRows 0 inv))
  have hmapDnodup : ((duplicatedKeepFalse (indexRows 0 inv)).map Prod.fst).Nodup :=
    (List.pairwise_map.mpr hpfst).imp Nat.ne_of_lt
  have hmapSnodup : ((sortedDuplicates inv).map Prod.fst).Nodup :=
    ((hperm.map Prod.fst).nodup_iff).mpr hmapDnodup
  have hSnodup : (sortedDuplicates inv).Nodup := hmapSnodup.of_map
  rw [List.pairwise_iff_getElem]
  intro i j hi hj hij
  have hle : sortKey ((sortedDuplicates inv)[i]).2 ≤
      sortKey ((sortedDuplicates inv)[j]).2 :=
    (List.pairwise_iff_getElem.mp hsorted) i j hi hj hij
  rcases lt_or_eq_of_le hle with hlt | heq
  · exact Or.inl hlt
  · refine Or.inr ⟨heq, ?_⟩
    have hfstne : ((sortedDuplicates inv)[i]).1 ≠ ((sortedDuplicates inv)[j]).1 := by
      intro hcontra
      have hmap : ((sortedDuplicates inv).map Prod.fst).get ⟨i, by simpa using hi⟩ =
          ((sortedDuplicates inv).map Prod.fst).get ⟨j, by simpa using hj⟩ := by
        simpa using hcontra
      have hij2 : i = j := congrArg Fin.val (hmapSnodup.get_inj_iff.mp hmap)
      exact absurd hij2 (Nat.ne_of_lt hij)
    rcases Nat.lt_or_ge ((sortedDuplicates inv)[i]).1 ((sortedDuplicates inv)[j]).1
      with hn | hn
    · exact hn
    · exfalso
      have hjl : ((sortedDuplicates inv)[j]).1 < ((sortedDuplicates inv)[i]).1 :=
        lt_of_le_of_ne hn (Ne.symm hfstne)
      have hxD : (sortedDuplicates inv)[j] ∈ duplicatedKeepFalse (indexRows 0 inv) :=
        hperm.mem_iff.mp (List.getElem_mem hj)
      have hyD : (sortedDuplicates inv)[i] ∈ duplicatedKeepFalse (indexRows 0 inv) :=
        hperm.mem_iff.mp (List.getElem_mem hi)
      have hsub : List.Sublist [(sortedDuplicates inv)[j], (sortedDuplicates inv)[i]]
          (duplicatedKeepFalse (indexRows 0 inv)) :=
        pair_sublist_of_pairwise (fun x y h h' => Nat.lt_asymm h h') hpfst hxD hyD hjl
      have hle2 : rowLe ((sortedDuplicates inv)[j]) ((sortedDuplicates inv)[i]) :=
        le_of_eq heq.symm
      have hsubS : List.Sublist [(sortedDuplicates inv)[j], (sortedDuplicates inv)[i]]
          (sortedDuplicates inv) :=
        List.pair_sublist_insertionSort hle2 hsub
      obtain ⟨p, q, hp, hq, hpq, hps, hqs⟩ := exists_getElem_pair_of_sublist hsubS
      have hpj : p = j := hSnodup.getElem_inj_iff.mp hps
      have hqi : q = i := hSnodup.getElem_inj_iff.mp hqs
      omega

/-- `drop_duplicates(keep="first")` on a `precedes`-sorted list keeps exactly
the `precedes`-least row of each grouping key whose key is not in `seen`. -/
lemma mem_dropDuplicatesFirst {l : List Row} (hSP : l.Pairwise precedes)
    (seen : List (String × String)) (r : Row) :
    r ∈ dropDuplicatesFirst l seen ↔
      r ∈ l ∧ dupKey r.2 ∉ seen ∧
        ∀ s ∈ l, dupKey s.2 = dupKey r.2 → s ≠ r → precedes r s := by
  induction l generalizing seen with
  | nil => simp [dropDuplicatesFirst]
  | cons x xs ih =>
    have hhead : ∀ s ∈ xs, precedes x s := fun s hs => List.rel_of_pairwise_cons hSP hs
    have hxnotmem : x ∉ xs := fun hx => precedes_irrefl (hhead x hx)
    rw [dropDuplicatesFirst]
    by_cases hseen : dupKey x.2 ∈ seen
    · rw [if_pos hseen, ih hSP.of_cons seen]
      constructor
      · rintro ⟨hmem, hnot, hmin⟩
        refine ⟨List.mem_cons_of_mem x hmem, hnot, ?_⟩
        intro s hs hkey hne
        rcases List.mem_cons.mp hs with rfl | hs
        · exact absurd (hkey ▸ hseen) hnot
        · exact hmin s hs hkey hne
      · rintro ⟨hmem, hnot, hmin⟩
        have hrx : r ≠ x := fun h => hnot (h ▸ hseen)
        rcases List.mem_cons.mp hmem with rfl | hmem
        · exact absurd rfl hrx
        · exact ⟨hmem, hnot, fun s hs hkey hne =>
            hmin s (List.mem_cons_of_mem x hs) hkey hne⟩
    · rw [if_neg hseen]
      constructor
      · intro hin
        rcases List.mem_cons.mp hin with rfl | hin
        · refine ⟨List.mem_cons_self r xs, hseen, ?_⟩
          intro s hs _ hne
          rcases List.mem_cons.mp hs with rfl | hs
          · exact absurd rfl hne
          · exact hhead s hs
        · obtain ⟨hmem, hnot, hmin⟩ := (ih hSP.of_cons _ ).mp hin
          have hkx : dupKey r.2 ≠ dupKey x.2 := by
            intro h
            exact hnot (List.mem_cons.mpr (Or.inl h))
          refine ⟨List.mem_cons_of_mem x hmem, fun h =>
            hnot (List.mem_cons_of_mem _ h), ?_⟩
          intro s hs hkey hne
          rcases List.mem_cons.mp hs with rfl | hs
          · exact absurd hkey.symm hkx
          · exact hmin s hs hkey hne
      · rintro ⟨hmem, hnot, hmin⟩
        rcases List.mem_cons.mp hmem with rfl | hmem
        · exact List.mem_cons_self r _
        · have hrx : r ≠ x := fun h => hxnotmem (h ▸ hmem)
          have hkx : dupKey r.2 ≠ dupKey x.2 := by
            intro hk
            exact precedes_asymm (hmin x (List.mem_cons_self x xs) hk.symm
              (Ne.symm hrx)) (hhead r hmem)
          refine List.mem_cons_of_mem x ((ih hSP.of_cons _).mpr
            ⟨hmem, ?_, fun s hs hkey hne =>
              hmin s (List.mem_cons_of_mem x hs) hkey hne⟩)
          intro hk
          rcases List.mem_cons.mp hk with hk | hk
          · exact hkx hk
          · exact hnot hk

lemma sortedDuplicates_map_fst_nodup (inv : List Agent) :
    ((sortedDuplicates inv).map Prod.fst).Nodup := by
  have hpfst : (duplicatedKeepFalse (indexRows 0 inv)).Pairwise
      (fun a b => a.1 < b.1) :=
    List.Pairwise.filter _ (indexRows_pairwise 0 inv)
  have hperm : (sortedDuplicates inv).Perm (duplicatedKeepFalse (indexRows 0 inv)) :=
    List.perm_insertionSort rowLe (duplicatedKeepFalse (indexRows 0 inv))
  exact ((hperm.map Prod.fst).nodup_iff).mpr
    ((List.pairwise_map.mpr hpfst).imp Nat.ne_of_lt)

/-- Master characterization of `find_duplicate_agents`: a row is a removal
candidate iff it occurs in the inventory, its (hostname, address) key occurs at
least twice, and it is not the group's retained row (the `precedes`-least row
of its group). -/
theorem mem_find_duplicate_agents_iff (inv : List Agent) (r : Row) :
    r ∈ find_duplicate_agents inv ↔
      r ∈ indexRows 0 inv ∧ 2 ≤ keyCount (indexRows 0 inv) (dupKey r.2) ∧
        ¬ retainedFirst (indexRows 0 inv) r := by
  have hSP := sortedDuplicates_pairwise inv
  have hperm : (sortedDuplicates inv).Perm (duplicatedKeepFalse (indexRows 0 inv)) :=
    List.perm_insertionSort rowLe (duplicatedKeepFalse (indexRows 0 inv))
  have hmapSnodup := sortedDuplicates_map_fst_nodup inv
  have hmemL : ∀ x : Row, x ∈ latestEntries inv ↔ x ∈ sortedDuplicates inv ∧
      ∀ s ∈ sortedDuplicates inv, dupKey s.2 = dupKey x.2 → s ≠ x → precedes x s := by
    intro x
    have := mem_dropDuplicatesFirst hSP [] x
    simpa [latestEntries] using this
  have hfst_iff : ∀ x ∈ sortedDuplicates inv,
      (x.1 ∈ (latestEntries inv).map Prod.fst ↔ x ∈ latestEntries inv) := by
    intro x hx
    constructor
    · intro hmem
      obtain ⟨s, hsL, hfst⟩ := List.mem_map.mp hmem
      have hsS : s ∈ sortedDuplicates inv := ((hmemL s).mp hsL).1
      have heq : s = x := List.inj_on_of_nodup_map hmapSnodup hsS hx hfst
      exact heq ▸ hsL
    · intro h
      exact List.mem_map.mpr ⟨x, h, rfl⟩
  constructor
  · intro h
    obtain ⟨hS, hpred⟩ := List.mem_filter.mp h
    have hnotL : r ∉ latestEntries inv := by
      intro hL
      have := (hfst_iff r hS).mpr hL
      simp [this] at hpred
    have hD : r ∈ duplicatedKeepFalse (indexRows 0 inv) := hperm.mem_iff.mp hS
    obtain ⟨hrows, hcount⟩ := mem_duplicatedKeepFalse.mp hD
    refine ⟨hrows, hcount, ?_⟩
    intro hret
    apply hnotL
    refine (hmemL r).mpr ⟨hS, ?_⟩
    intro s hsS hkey hne
    have hsD : s ∈ duplicatedKeepFalse (indexRows 0 inv) := hperm.mem_iff.mp hsS
    exact hret s (mem_duplicatedKeepFalse.mp hsD).1 hkey hne
  · rintro ⟨hrows, hcount, hnotret⟩
    have hD : r ∈ duplicatedKeepFalse (indexRows 0 inv) :=
      mem_duplicatedKeepFalse.mpr ⟨hrows, hcount⟩
    have hS : r ∈ sortedDuplicates inv := hperm.mem_iff.mpr hD
    refine List.mem_filter.mpr ⟨hS, ?_⟩
    have hnotL : r ∉ latestEntries inv := by
      intro hL
      apply hnotret
      intro s hs hkey hne
      have hsD : s ∈ duplicatedKeepFalse (indexRows 0 inv) :=
        mem_duplicatedKeepFalse.mpr ⟨hs, by
          rw [show keyCount (indexRows 0 inv) (dupKey s.2) =
            keyCount (indexRows 0 inv) (dupKey r.2) from by rw [hkey]]
          exact hcount⟩
      have hsS : s ∈ sortedDuplicates inv := hperm.mem_iff.mpr hsD
      exact ((hmemL r).mp hL).2 s hsS hkey hne
    have : ¬ r.1 ∈ (latestEntries inv).map Prod.fst := by
      intro hmem
      exact hnotL ((hfst_iff r hS).mp hmem)
    simpa using this

lemma fst_ne_of_pairwise_mem {l : List Row}
    (h : l.Pairwise (fun a b => a.1 < b.1)) :
    ∀ a ∈ l, ∀ b ∈ l, a ≠ b → a.1 ≠ b.1 := by
  induction l with
  | nil => intro a ha; simp at ha
  | cons x xs ih =>
    have hhead : ∀ y ∈ xs, x.1 < y.1 := fun y hy => List.rel_of_pairwise_cons h hy
    intro a ha b hb hne
    rcases List.mem_cons.mp ha with rfl | ha2
    · rcases List.mem_cons.mp hb with rfl | hb2
      · exact absurd rfl hne
      · exact Nat.ne_of_lt (hhead b hb2)
    · rcases List.mem_cons.mp hb with rfl | hb2
      · exact (Nat.ne_of_lt (hhead a ha2)).symm
      · exact ih h.of_cons a ha2 b hb2 hne

/-- Any nonempty list of rows with pairwise-distinct indices has a
`precedes`-least element. -/
lemma exists_min_precedes :
    ∀ {l : List Row}, l ≠ [] → (∀ a ∈ l, ∀ b ∈ l, a ≠ b → a.1 ≠ b.1) →
      ∃ r ∈ l, ∀ s ∈ l, s ≠ r → precedes r s := by
  intro l
  induction l with
  | nil => intro h; exact absurd rfl h
  | cons x xs ih =>
    intro _ htot
    rcases eq_or_ne xs [] with rfl | hne
    · refine ⟨x, List.mem_cons_self x [], ?_⟩
      intro s hs hsne
      rcases List.mem_cons.mp hs with rfl | hs2
      · exact absurd rfl hsne
      · simp at hs2
    · have htot2 : ∀ a ∈ xs, ∀ b ∈ xs, a ≠ b → a.1 ≠ b.1 := fun a ha b hb =>
        htot a (List.mem_cons_of_mem x ha) b (List.mem_cons_of_mem x hb)
      obtain ⟨m, hm, hmin⟩ := ih hne htot2
      by_cases hxm : x = m
      · subst hxm
        refine ⟨x, List.mem_cons_self x xs, ?_⟩
        intro s hs hsne
        rcases List.mem_cons.mp hs with rfl | hs2
        · exact absurd rfl hsne
        · exact hmin s hs2 hsne
      · have hfst : x.1 ≠ m.1 :=
          htot x (List.mem_cons_self x xs) m (List.mem_cons_of_mem x hm) hxm
        rcases precedes_total_of_fst_ne hfst with hxp | hmp
        · refine ⟨x, List.mem_cons_self x xs, ?_⟩
          intro s hs hsne
          rcases List.mem_cons.mp hs with rfl | hs2
          · exact absurd rfl hsne
          · by_cases hsm : s = m
            · exact hsm ▸ hxp
            · exact precedes_trans hxp (hmin s hs2 hsm)
        · refine ⟨m, List.mem_cons_of_mem x hm, ?_⟩
          intro s hs hsne
          rcases List.mem_cons.mp hs with rfl | hs2
          · exact hmp
          · exact hmin s hs2 hsne

lemma sortKey_lt_iff_of_dupKey_eq {a b : Agent} (h : dupKey a = dupKey b) :
    sortKey a < sortKey b ↔
      (modifiedKey a.modified < modifiedKey b.modified ∨
        (modifiedKey a.modified = modifiedKey b.modified ∧
          createdKey a.created < createdKey b.created)) := by
  have h1 : a.hostname = b.hostname := congrArg Prod.fst h
  have h2 : a.address = b.address := congrArg Prod.snd h
  unfold sortKey
  rw [h1, h2]
  simp [Prod.Lex.lt_iff, lt_self_iff_false]

lemma sortKey_eq_iff_of_dupKey_eq {a b : Agent} (h : dupKey a = dupKey b) :
    sortKey a = sortKey b ↔
      (modifiedKey a.modified = modifiedKey b.modified ∧
        createdKey a.created = createdKey b.created) := by
  have h1 : a.hostname = b.hostname := congrArg Prod.fst h
  have h2 : a.address = b.address := congrArg Prod.snd h
  unfold sortKey
  rw [h1, h2]
  simp [toLex_inj]

lemma precedes_iff_keepsBefore {a b : Row} (h : dupKey a.2 = dupKey b.2) :
    precedes a b ↔ keepsBefore a b := by
  unfold precedes keepsBefore
  rw [sortKey_lt_iff_of_dupKey_eq h, sortKey_eq_iff_of_dupKey_eq h]
  tauto

/-- C1 (amended): for every inventory and every duplicate group in it (maximal
set of rows sharing one (hostname, address) pair, of size at least 2), the
candidate set of `find_duplicate_agents` omits exactly one member of the group
and contains every other member; the omitted (retained) member is the one with
the latest modified timestamp (an unparseable modified counting as earliest),
ties broken by earliest created where an unparseable created counts as later
than any parseable one, remaining ties broken in favour of the earliest
fetched row. -/
theorem duplicate_group_exactly_one_retained (inv : List Agent)
    (k : String × String)
    (hk : 2 ≤ ((indexRows 0 inv).filter (fun s => decide (dupKey s.2 = k))).length) :
    ∃ r ∈ (indexRows 0 inv).filter (fun s => decide (dupKey s.2 = k)),
      r ∉ find_duplicate_agents inv ∧
      (∀ s ∈ (indexRows 0 inv).filter (fun s => decide (dupKey s.2 = k)),
        s ≠ r → s ∈ find_duplicate_agents inv) ∧
      ∀ s ∈ (indexRows 0 inv).filter (fun s => decide (dupKey s.2 = k)),
        s ≠ r → keepsBefore r s := by
  have hGpair : ((indexRows 0 inv).filter
      (fun s => decide (dupKey s.2 = k))).Pairwise (fun a b => a.1 < b.1) :=
    List.Pairwise.filter _ (indexRows_pairwise 0 inv)
  have hGne : (indexRows 0 inv).filter (fun s => decide (dupKey s.2 = k)) ≠ [] := by
    intro h0
    rw [h0] at hk
    simp at hk
  obtain ⟨r, hrG, hrmin⟩ :=
    exists_min_precedes hGne (fst_ne_of_pairwise_mem hGpair)
  obtain ⟨hr_rows, hr_keyd⟩ := List.mem_filter.mp hrG
  have hr_key : dupKey r.2 = k := by simpa using hr_keyd
  have hcountk : ∀ s : Row, dupKey s.2 = k →
      2 ≤ keyCount (indexRows 0 inv) (dupKey s.2) := by
    intro s hs
    rw [keyCount, hs, List.countP_eq_length_filter]
    exact hk
  have hmemG : ∀ s ∈ indexRows 0 inv, dupKey s.2 = dupKey r.2 →
      s ∈ (indexRows 0 inv).filter (fun s => decide (dupKey s.2 = k)) := by
    intro s hs hkey
    exact List.mem_filter.mpr ⟨hs, by simp [hkey, hr_key]⟩
  have hret : retainedFirst (indexRows 0 inv) r := by
    intro s hs hkey hne
    exact hrmin s (hmemG s hs hkey) hne
  refine ⟨r, hrG, ?_, ?_, ?_⟩
  · intro hmem
    exact ((mem_find_duplicate_agents_iff inv r).mp hmem).2.2 hret
  · intro s hsG hne
    obtain ⟨hs_rows, hs_keyd⟩ := List.mem_filter.mp hsG
    have hs_key : dupKey s.2 = k := by simpa using hs_keyd
    refine (mem_find_duplicate_agents_iff inv s).mpr
      ⟨hs_rows, hcountk s hs_key, ?_⟩
    intro hsret
    have h1 : precedes s r :=
      hsret r hr_rows (hr_key.trans hs_key.symm) (Ne.symm hne)
    exact precedes_asymm (hrmin s hsG hne) h1
  · intro s hsG hne
    have hs_key : dupKey s.2 = k := by simpa using (List.mem_filter.mp hsG).2
    exact (precedes_iff_keepsBefore (hr_key.trans hs_key.symm)).mp (hrmin s hsG hne)

/-- C1 witness: applying the group theorem to a concrete inventory with one
duplicate group of size two. -/
theorem duplicate_group_exactly_one_retained_witness :
    2 ≤ ((indexRows 0 [⟨"w1", "h", "1", some 0, some 1⟩,
        ⟨"w2", "h", "1", some 0, some 2⟩]).filter
        (fun s => decide (dupKey s.2 = ("h", "1")))).length ∧
    ∃ r ∈ (indexRows 0 [⟨"w1", "h", "1", some 0, some 1⟩,
        ⟨"w2", "h", "1", some 0, some 2⟩]).filter
        (fun s => decide (dupKey s.2 = ("h", "1"))),
      r ∉ find_duplicate_agents [⟨"w1", "h", "1", some 0, some 1⟩,
        ⟨"w2", "h", "1", some 0, some 2⟩] ∧
      (∀ s ∈ (indexRows 0 [⟨"w1", "h", "1", some 0, some 1⟩,
          ⟨"w2", "h", "1", some 0, some 2⟩]).filter
          (fun s => decide (dupKey s.2 = ("h", "1"))),
        s ≠ r → s ∈ find_duplicate_agents [⟨"w1", "h", "1", some 0, some 1⟩,
          ⟨"w2", "h", "1", some 0, some 2⟩]) ∧
      ∀ s ∈ (indexRows 0 [⟨"w1", "h", "1", some 0, some 1⟩,
          ⟨"w2", "h", "1", some 0, some 2⟩]).filter
          (fun s => decide (dupKey s.2 = ("h", "1"))),
        s ≠ r → keepsBefore r s :=
  ⟨by decide,
    duplicate_group_exactly_one_retained
      [⟨"w1", "h", "1", some 0, some 1⟩, ⟨"w2", "h", "1", some 0, some 2⟩]
      ("h", "1") (by decide)⟩

/-- C1 counterexample: in the single duplicate group of `tieNullInv2` the two
rows tie on modified; under the specification's reading that a null timestamp
sorts as the earliest value, row 1 (unparseable created) is the member with
the latest modified and earliest created, so the claim says row 1 is the
retained record, absent from the candidate set — but `find_duplicate_agents`
returns exactly row 1 as the candidate (retaining row 0 instead). -/
theorem duplicate_group_claimed_order_fails :
    modifiedKey ((tieNullInv2.get ⟨1, by decide⟩).modified) =
        modifiedKey ((tieNullInv2.get ⟨0, by decide⟩).modified) ∧
    specCreatedKeyNullEarliest ((tieNullInv2.get ⟨1, by decide⟩).created) <
        specCreatedKeyNullEarliest ((tieNullInv2.get ⟨0, by decide⟩).created) ∧
    find_duplicate_agents tieNullInv2 = [(1, tieNullInv2.get ⟨1, by decide⟩)] := by
  decide

lemma keyCount_eq_one_of_pairwise_ne :
    ∀ {rows : List Row}, rows.Pairwise (fun a b => dupKey a.2 ≠ dupKey b.2) →
      ∀ r ∈ rows, keyCount rows (dupKey r.2) = 1 := by
  intro rows
  induction rows with
  | nil => intro _ r hr; simp at hr
  | cons x xs ih =>
    intro h r hr
    have hhead : ∀ y ∈ xs, dupKey x.2 ≠ dupKey y.2 := fun y hy =>
      List.rel_of_pairwise_cons h hy
    rw [keyCount, List.countP_cons]
    rcases List.mem_cons.mp hr with rfl | hr2
    · have hz : List.countP (fun s => decide (dupKey s.2 = dupKey r.2)) xs = 0 :=
        List.countP_eq_zero.mpr (fun s hs => by simpa using (hhead s hs).symm)
      rw [hz]
      simp
    · have hne : dupKey x.2 ≠ dupKey r.2 := hhead r hr2
      have hxs : keyCount xs (dupKey r.2) = 1 := ih h.of_cons r hr2
      rw [keyCount] at hxs
      rw [hxs]
      simp [hne]

/-- C2: for every inventory in which no two rows share a (hostname, address)
pair — in particular the empty inventory — `find_duplicate_agents` returns the
empty candidate set. -/
theorem no_duplicates_empty_candidates (inv : List Agent)
    (h : (indexRows 0 inv).Pairwise (fun a b => dupKey a.2 ≠ dupKey b.2)) :
    find_duplicate_agents inv = [] := by
  have hD : duplicatedKeepFalse (indexRows 0 inv) = [] := by
    rw [duplicatedKeepFalse, List.filter_eq_nil_iff]
    intro r hr
    simp [keyCount_eq_one_of_pairwise_ne h r hr]
  simp [find_duplicate_agents, sortedDuplicates, hD]

/-- C2 witness: a concrete two-record inventory with distinct grouping keys
has an empty candidate set. -/
theorem no_duplicates_empty_candidates_witness :
    (indexRows 0 [⟨"x", "h1", "1", some 0, some 1⟩,
        ⟨"y", "h2", "1", some 0, some 2⟩]).Pairwise
      (fun a b => dupKey a.2 ≠ dupKey b.2) ∧
    find_duplicate_agents
      [⟨"x", "h1", "1", some 0, some 1⟩, ⟨"y", "h2", "1", some 0, some 2⟩] = [] :=
  ⟨by decide, no_duplicates_empty_candidates _ (by decide)⟩

/-- C3 (amended): every removal candidate is a row of the inventory and
belongs to a duplicate group, and for every nonempty inventory some row of the
inventory is not a candidate (so the candidate set is a proper subset of every
nonempty inventory; on the empty inventory both sides are empty). -/
theorem selector_output_subset (inv : List Agent) :
    (∀ r ∈ find_duplicate_agents inv, r ∈ indexRows 0 inv ∧
      2 ≤ keyCount (indexRows 0 inv) (dupKey r.2)) ∧
    (inv ≠ [] → ∃ r ∈ indexRows 0 inv, r ∉ find_duplicate_agents inv) := by
  constructor
  · intro r hr
    have hm := (mem_find_duplicate_agents_iff inv r).mp hr
    exact ⟨hm.1, hm.2.1⟩
  · intro hne
    obtain ⟨a, l, rfl⟩ := List.exists_cons_of_ne_nil hne
    have h0mem : ((0 : Nat), a) ∈ indexRows 0 (a :: l) := List.mem_cons_self _ _
    by_cases hc : 2 ≤ keyCount (indexRows 0 (a :: l)) (dupKey a)
    · have hGpair : ((indexRows 0 (a :: l)).filter
          (fun s => decide (dupKey s.2 = dupKey a))).Pairwise
          (fun x y => x.1 < y.1) :=
        List.Pairwise.filter _ (indexRows_pairwise 0 (a :: l))
      have h0G : ((0 : Nat), a) ∈ (indexRows 0 (a :: l)).filter
          (fun s => decide (dupKey s.2 = dupKey a)) :=
        List.mem_filter.mpr ⟨h0mem, by simp⟩
      obtain ⟨r, hrG, hrmin⟩ := exists_min_precedes (List.ne_nil_of_mem h0G)
        (fst_ne_of_pairwise_mem hGpair)
      obtain ⟨hr_rows, hr_keyd⟩ := List.mem_filter.mp hrG
      have hr_key : dupKey r.2 = dupKey a := by simpa using hr_keyd
      refine ⟨r, hr_rows, ?_⟩
      intro hmem
      apply ((mem_find_duplicate_agents_iff (a :: l) r).mp hmem).2.2
      intro s hs hkey hne2
      exact hrmin s (List.mem_filter.mpr ⟨hs, by simp [hkey, hr_key]⟩) hne2
    · refine ⟨(0, a), h0mem, ?_⟩
      intro hmem
      exact hc ((mem_find_duplicate_agents_iff (a :: l) (0, a)).mp hmem).2.1

/-- C3 witness: on a concrete nonempty inventory, some row is not a
candidate. -/
theorem selector_output_subset_witness :
    ([⟨"v1", "h", "1", some 0, some 1⟩] : List Agent) ≠ [] ∧
    ∃ r ∈ indexRows 0 [⟨"v1", "h", "1", some 0, some 1⟩],
      r ∉ find_duplicate_agents [⟨"v1", "h", "1", some 0, some 1⟩] :=
  ⟨by decide, (selector_output_subset _).2 (by decide)⟩

/-- C3 counterexample: on the empty inventory the candidate set equals the
(empty) input, so it is not a strict subset: no input row is outside the
candidate set. -/
theorem selector_strictness_fails_on_empty :
    find_duplicate_agents [] = [] ∧
    ¬ ∃ r ∈ indexRows 0 ([] : List Agent), r ∉ find_duplicate_agents [] := by
  refine ⟨by decide, ?_⟩
  simp [indexRows]

/-- C5 (amended): timestamps are compared through the normalized keys, where a
parseable modified timestamp always sorts strictly before an unparseable one
(so `NaT` acts as the earliest modified under the descending key), a parseable
created timestamp also sorts strictly before an unparseable one (so `NaT`
acts as the LATEST created under the ascending key — pandas puts `NaT` last
regardless of sort direction), and the sort is stable: rows tied on the whole
sort key appear in the sorted duplicate list in fetch order. -/
theorem timestamp_null_sorting (t : Int) :
    modifiedKey (some t) < modifiedKey none ∧
    createdKey (some t) < createdKey none ∧
    ∀ (inv : List Agent) (key : List Char ×ₗ (List Char ×ₗ (WithTop Int ×ₗ WithTop Int))),
      ((sortedDuplicates inv).filter (fun r => decide (sortKey r.2 = key))).Pairwise
        (fun a b => a.1 < b.1) := by
  refine ⟨?_, ?_, ?_⟩
  · simpa [modifiedKey] using WithTop.coe_lt_top (-t)
  · simp [createdKey]
  · intro inv key
    have hSP := List.Pairwise.filter (fun r => decide (sortKey r.2 = key))
      (sortedDuplicates_pairwise inv)
    refine hSP.imp_of_mem ?_
    intro a b ha hb hab
    have hka : sortKey a.2 = key := by simpa using (List.mem_filter.mp ha).2
    have hkb : sortKey b.2 = key := by simpa using (List.mem_filter.mp hb).2
    rcases hab with h | ⟨_, h⟩
    · rw [hka, hkb] at h
      exact absurd h (lt_irrefl _)
    · exact h

/-- C5 counterexample: in `tieNullInv` the two duplicate rows tie on modified
and the second has an unparseable created timestamp.  The claim says the null
sorts as the earliest possible value under the ascending created ordering, so
row 1 should sort before row 0 — but the stable sort places row 1 last (and
the selector therefore removes row 1, not row 0). -/
theorem timestamp_null_sorts_last_not_first :
    modifiedKey ((tieNullInv.get ⟨0, by decide⟩).modified) =
        modifiedKey ((tieNullInv.get ⟨1, by decide⟩).modified) ∧
    specCreatedKeyNullEarliest ((tieNullInv.get ⟨1, by decide⟩).created) <
        specCreatedKeyNullEarliest ((tieNullInv.get ⟨0, by decide⟩).created) ∧
    sortedDuplicates tieNullInv =
      [(0, tieNullInv.get ⟨0, by decide⟩), (1, tieNullInv.get ⟨1, by decide⟩)] ∧
    find_duplicate_agents tieNullInv = [(1, tieNullInv.get ⟨1, by decide⟩)] := by
  decide

/-- C10: running the Duplicate Selector twice on the same (unmutated)
inventory yields the same candidate set both times: the selector does not
modify its input, and its output is a function of the inventory value
alone. -/
theorem selector_idempotent (inv : List Agent) :
    (selectorRun ((selectorRun inv).2)).1 = (selectorRun inv).1 ∧
    (selectorRun inv).2 = inv :=
  ⟨rfl, rfl⟩

/-! ### Facts about the removal loop -/

lemma removeLoop_append (api : Nat → UninstallOutcome) (dry : Bool)
    (l₁ l₂ : List Row) (i : Nat) :
    removeLoop api dry (l₁ ++ l₂) i =
      ((removeLoop api dry l₁ i).1 ++ (removeLoop api dry l₂ (i + l₁.length)).1,
       (removeLoop api dry l₁ i).2 ++ (removeLoop api dry l₂ (i + l₁.length)).2) := by
  induction l₁ generalizing i with
  | nil => simp [removeLoop]
  | cons r rest ih =>
    have harith : i + (rest.length + 1) = (i + 1) + rest.length := by omega
    rw [List.cons_append, removeLoop, removeLoop]
    cases dry with
    | true => simp [ih (i + 1), harith]
    | false =>
      cases hapi : api i with
      | exn => simp [hapi, ih (i + 1), harith]
      | resp rc cnt => simp [hapi, ih (i + 1), harith]

lemma removeLoop_cons_resp (api : Nat → UninstallOutcome) (r : Row)
    (rest : List Row) (i : Nat) (rc cnt : Option String)
    (h : api i = .resp rc cnt) :
    removeLoop api false (r :: rest) i =
      (LogEvent.header false r.2.id r.2.hostname r.2.address ::
        (if rc = some "SUCCESS" ∧ cnt ≠ some "0" then LogEvent.uninstallOk r.2.id
         else LogEvent.uninstallFailed r.2.id rc cnt) ::
        (removeLoop api false rest (i + 1)).1,
       r.2.id :: (removeLoop api false rest (i + 1)).2) := by
  rw [removeLoop]
  simp [h]

lemma removeLoop_cons_exn (api : Nat → UninstallOutcome) (r : Row)
    (rest : List Row) (i : Nat) (h : api i = .exn) :
    removeLoop api false (r :: rest) i =
      (LogEvent.header false r.2.id r.2.hostname r.2.address ::
        LogEvent.uninstallError r.2.id ::
        (removeLoop api false rest (i + 1)).1,
       r.2.id :: (removeLoop api false rest (i + 1)).2) := by
  rw [removeLoop]
  simp [h]

/-- C4: the live removal loop interprets a parsed response as a success iff
the `responseCode` text equals `"SUCCESS"` and the `count` text differs from
`"0"`; any other combination is logged as a failure, and the loop then
continues with the remaining candidates either way. -/
theorem removal_success_predicate (api : Nat → UninstallOutcome)
    (pre post : List Row) (r : Row) (rc cnt : Option String)
    (h : api pre.length = .resp rc cnt) :
    remove_cloud_agents api (pre ++ r :: post) false =
      ((removeLoop api false pre 0).1 ++
        LogEvent.header false r.2.id r.2.hostname r.2.address ::
        (if rc = some "SUCCESS" ∧ cnt ≠ some "0" then LogEvent.uninstallOk r.2.id
         else LogEvent.uninstallFailed r.2.id rc cnt) ::
        (removeLoop api false post (pre.length + 1)).1,
       (removeLoop api false pre 0).2 ++ r.2.id ::
        (removeLoop api false post (pre.length + 1)).2) ∧
    ((if rc = some "SUCCESS" ∧ cnt ≠ some "0" then LogEvent.uninstallOk r.2.id
      else LogEvent.uninstallFailed r.2.id rc cnt) = LogEvent.uninstallOk r.2.id ↔
      (rc = some "SUCCESS" ∧ cnt ≠ some "0")) := by
  constructor
  · rw [remove_cloud_agents, removeLoop_append,
      removeLoop_cons_resp api r post (0 + pre.length) rc cnt (by simpa using h)]
    simp
  · by_cases hp : rc = some "SUCCESS" ∧ cnt ≠ some "0"
    · simp [hp]
    · simp [hp]

/-- C4 witness: a response with code `"SUCCESS"` and count `"0"` is logged as
a failure, not a success. -/
theorem removal_success_predicate_witness :
    remove_cloud_agents (fun _ => .resp (some "SUCCESS") (some "0"))
      [(0, ⟨"c1", "h", "1", none, none⟩)] false =
      ([LogEvent.header false "c1" "h" "1",
        LogEvent.uninstallFailed "c1" (some "SUCCESS") (some "0")], ["c1"]) := by
  have hmain := removal_success_predicate (fun _ => .resp (some "SUCCESS") (some "0"))
    [] [] (0, ⟨"c1", "h", "1", none, none⟩) (some "SUCCESS") (some "0") rfl
  simpa [removeLoop] using hmain.1

/-- C7: in live mode, an exception raised while removing one candidate is
caught and logged with that candidate's id, and the loop continues through
every remaining candidate. -/
theorem removal_error_isolation (api : Nat → UninstallOutcome)
    (pre post : List Row) (r : Row) (h : api pre.length = .exn) :
    remove_cloud_agents api (pre ++ r :: post) false =
      ((removeLoop api false pre 0).1 ++
        LogEvent.header false r.2.id r.2.hostname r.2.address ::
        LogEvent.uninstallError r.2.id ::
        (removeLoop api false post (pre.length + 1)).1,
       (removeLoop api false pre 0).2 ++ r.2.id ::
        (removeLoop api false post (pre.length + 1)).2) := by
  rw [remove_cloud_agents, removeLoop_append,
    removeLoop_cons_exn api r post (0 + pre.length) (by simpa using h)]
  simp

/-- C7 witness: with an exception on the first of two candidates, the error is
logged with the first candidate's id and the second candidate is still
processed. -/
theorem removal_error_isolation_witness :
    remove_cloud_agents
      (fun i => if i = 0 then .exn else .resp (some "SUCCESS") (some "1"))
      [(0, ⟨"e1", "h", "1", none, none⟩), (1, ⟨"e2", "h", "2", none, none⟩)]
      false =
      ([LogEvent.header false "e1" "h" "1", LogEvent.uninstallError "e1",
        LogEvent.header false "e2" "h" "2", LogEvent.uninstallOk "e2"],
       ["e1", "e2"]) := by
  have hmain := removal_error_isolation
    (fun i => if i = 0 then .exn else .resp (some "SUCCESS") (some "1"))
    [] [(1, ⟨"e2", "h", "2", none, none⟩)] (0, ⟨"e1", "h", "1", none, none⟩) rfl
  simpa [removeLoop] using hmain

/-- C8: a dry run performs zero uninstall calls and produces exactly one log
line per candidate, in the candidate list's iteration order. -/
theorem dry_run_no_calls (api : Nat → UninstallOutcome) (cands : List Row) :
    remove_cloud_agents api cands true =
      (cands.map (fun r => LogEvent.header true r.2.id r.2.hostname r.2.address),
       []) := by
  rw [remove_cloud_agents]
  suffices hgen : ∀ (l : List Row) (i : Nat), removeLoop api true l i =
      (l.map (fun r => LogEvent.header true r.2.id r.2.hostname r.2.address), []) by
    exact hgen cands 0
  intro l
  induction l with
  | nil => intro i; simp [removeLoop]
  | cons r rest ih => intro i; simp [removeLoop, ih (i + 1)]

/-! ### Facts about the fetch loop -/

lemma fetchLoop_pages_true (ess : List (List RawEntry)) (rest : List FetchResp)
    (offset : Nat) (acc : List RawAgent) :
    fetchLoop (ess.map (fun es => FetchResp.page es (some "true")) ++ rest)
        offset acc =
      ⟨(fetchLoop rest (offset + 1000 * ess.length)
          (acc ++ ess.flatMap (fun es => es.map parseEntry))).agentsData,
       (List.range ess.length).map
           (fun j => ⟨"QAGENT", 1000, offset + 1000 * j⟩) ++
         (fetchLoop rest (offset + 1000 * ess.length)
           (acc ++ ess.flatMap (fun es => es.map parseEntry))).requests,
       (fetchLoop rest (offset + 1000 * ess.length)
         (acc ++ ess.flatMap (fun es => es.map parseEntry))).errorLogged⟩ := by
  induction ess generalizing offset acc with
  | nil => simp
  | cons es ess ih =>
    rw [List.map_cons, List.cons_append, fetchLoop]
    rw [if_pos rfl]
    rw [ih (offset + 1000) (acc ++ es.map parseEntry)]
    have harith : offset + 1000 + 1000 * ess.length = offset + 1000 * (ess.length + 1) := by
      ring
    have hacc : (acc ++ es.map parseEntry) ++ ess.flatMap (fun es => es.map parseEntry) =
        acc ++ (es :: ess).flatMap (fun es => es.map parseEntry) := by
      simp
    have hreq : (⟨"QAGENT", 1000, offset⟩ : SearchRequest) ::
        (List.range ess.length).map
          (fun j => (⟨"QAGENT", 1000, offset + 1000 + 1000 * j⟩ : SearchRequest)) =
        (List.range (ess.length + 1)).map
          (fun j => ⟨"QAGENT", 1000, offset + 1000 * j⟩) := by
      rw [List.range_succ_eq_map, List.map_cons, List.map_map]
      refine congrArg₂ _ (by simp) ?_
      refine List.map_congr_left ?_
      intro j _
      simp [Function.comp]
      omega
    rw [harith, hacc]
    simp only [List.length_cons]
    rw [← List.cons_append, hreq]

/-- C9: the fetch loop pages through the search endpoint with the fixed
tracking method `"QAGENT"` and fixed page size 1000, starting at offset 1;
it appends every entry of each page (name lowercased, missing fields
defaulting to the empty string inside `parseEntry`), advances the offset by
the page size and repeats while `hasMoreRecords` is the string `"true"`, and
otherwise terminates with the accumulated inventory. -/
theorem fetch_pagination (ess : List (List RawEntry)) (esLast : List RawEntry)
    (hmr : Option String) (h : hmr ≠ some "true") :
    fetchLoop (ess.map (fun es => FetchResp.page es (some "true")) ++
        [FetchResp.page esLast hmr]) 1 [] =
      ⟨(ess ++ [esLast]).flatMap (fun es => es.map parseEntry),
       (List.range (ess.length + 1)).map
         (fun j => ⟨"QAGENT", 1000, 1 + 1000 * j⟩),
       false⟩ := by
  rw [fetchLoop_pages_true, fetchLoop]
  rw [if_neg h]
  rw [List.range_succ]
  simp

/-- C9 witness: a concrete two-page run (first page signalling more records,
second page final) collects both pages' entries in order and requests offsets
1 and 1001. -/
theorem fetch_pagination_witness :
    (some "false" : Option String) ≠ some "true" ∧
    fetchLoop ([[(⟨some "N1", some "i1", some "a1", none, none⟩ : RawEntry)]].map
        (fun es => FetchResp.page es (some "true")) ++
        [FetchResp.page [] (some "false")]) 1 [] =
      ⟨([[(⟨some "N1", some "i1", some "a1", none, none⟩ : RawEntry)]] ++ [[]]).flatMap
          (fun es => es.map parseEntry),
       (List.range (1 + 1)).map (fun j => ⟨"QAGENT", 1000, 1 + 1000 * j⟩),
       false⟩ :=
  ⟨by decide,
    fetch_pagination [[(⟨some "N1", some "i1", some "a1", none, none⟩ : RawEntry)]]
      [] (some "false") (by decide)⟩

/-- C6: when a page request fails with a transport error, the error is
logged, the fetch loop issues no further requests, and `fetch_cloud_agents`
returns the inventory accumulated from the pages fetched so far, normally (no
exception value in the result type); the returned inventory is identical to
that of a complete fetch of the same pages, so no flag distinguishes a
truncated from a complete inventory. -/
theorem fetch_transport_error_fail_soft (parseTs : String → Option Int)
    (ess : List (List RawEntry)) (rest : List FetchResp) :
    fetchLoop (ess.map (fun es => FetchResp.page es (some "true")) ++
        FetchResp.transportError :: rest) 1 [] =
      ⟨ess.flatMap (fun es => es.map parseEntry),
       (List.range (ess.length + 1)).map
         (fun j => ⟨"QAGENT", 1000, 1 + 1000 * j⟩),
       true⟩ ∧
    fetch_cloud_agents parseTs
        (ess.map (fun es => FetchResp.page es (some "true")) ++
          FetchResp.transportError :: rest) =
      fetch_cloud_agents parseTs
        (ess.map (fun es => FetchResp.page es (some "true")) ++
          [FetchResp.page [] (some "false")]) := by
  have hloop : fetchLoop (ess.map (fun es => FetchResp.page es (some "true")) ++
      FetchResp.transportError :: rest) 1 [] =
      ⟨ess.flatMap (fun es => es.map parseEntry),
       (List.range (ess.length + 1)).map
         (fun j => ⟨"QAGENT", 1000, 1 + 1000 * j⟩),
       true⟩ := by
    rw [fetchLoop_pages_true, fetchLoop]
    rw [List.range_succ]
    simp
  refine ⟨hloop, ?_⟩
  rw [fetch_cloud_agents, fetch_cloud_agents, hloop,
    fetch_pagination ess [] (some "false") (by decide)]
  simp

end Qualys
